import Mathlib

/-!
# Verification of the GCS package lifecycle tracker

Shallow embedding of the `GcsPackageManager` / `GcsJobManager` fragment of the
GCS server (`src/ray/gcs/gcs_server/gcs_package_manager.{h,cc}`,
`src/ray/gcs/gcs_server/gcs_job_manager.h`) together with the reference-count
tracker and job-completion notifier described by the specification.

The RPC handlers (`HandleGetPackageInfo`, `HandleFetchPackage`,
`HandlePushPackage`) and the `LockPackage` / `UnlockPackage` stubs are
translated directly from `gcs_package_manager.cc`.  The external key-value
tables are collaborators, so each handler is parameterised by the outcome the
table reports (the `Status` and optional record handed to the handler's
callback) and returns the list of externally visible effects it performs, in
order.

The Reference Count Tracker, Lifecycle Recovery and notification fan-out have
no implementation under `src/` (only declarations such as
`GcsPackageManager::reference_count_` and
`GcsJobManager::job_finished_listeners_` appear there); those operations are
modelled from the specification, as marked on each definition.
-/

namespace RayGcs

/-- Status reported by the external table service; the handlers only inspect
`ok` (the C++ `status.ok()`) and forward the whole status in replies. -/
structure Status where
  ok : Bool
  msg : String
deriving DecidableEq

/-- `PackageTableData` protobuf record as populated by `HandlePushPackage`. -/
structure PackageTableData where
  skip_gc : Bool
  reference_count : Nat
  uri : String
deriving DecidableEq

/-- `CodeStorageTableData` protobuf record: the stored code bytes. -/
structure CodeStorageTableData where
  data : String
deriving DecidableEq

/-- `PushPackageRequest`: the fields read by `HandlePushPackage`. -/
structure PushPackageRequest where
  package_id : String
  skip_gc : Bool
  uri : String
  code : String
deriving DecidableEq

/-- `GetPackageInfoRequest`: the field read by `HandleGetPackageInfo`. -/
structure GetPackageInfoRequest where
  package_id : String
deriving DecidableEq

/-- `FetchPackageRequest`: the field read by `HandleFetchPackage`. -/
structure FetchPackageRequest where
  package_id : String
deriving DecidableEq

/-- `GetPackageInfoReply`: `package_info` is `none` while unset (the proto
default) and becomes `some` when the handler copies a record into it. -/
structure GetPackageInfoReply where
  package_info : Option PackageTableData
deriving DecidableEq

/-- `FetchPackageReply`: `package_data` is `none` while unset and becomes
`some` when the handler calls `set_package_data`. -/
structure FetchPackageReply where
  package_data : Option String
deriving DecidableEq

/-- Externally visible effects of `HandlePushPackage`, in program order:
a `Put` into the code storage table, a `Put` into the package table, and
`GCS_RPC_SEND_REPLY` carrying a status. -/
inductive PushEffect
  | codePut (package_id : String) (code : String)
  | metaPut (package_id : String) (meta : PackageTableData)
  | sendReply (status : Status)
deriving DecidableEq

/-- `GcsPackageManager::HandleGetPackageInfo` from `gcs_package_manager.cc`:
the package-table `Get` callback receives `(status, data)`; the reply's
`package_info` is set from `data` when a record is present, and exactly one
reply is sent carrying `status`.  The result lists the
`GCS_RPC_SEND_REPLY` invocations in order. -/
def handleGetPackageInfo (request : GetPackageInfoRequest) (status : Status)
    (data : Option PackageTableData) : List (GetPackageInfoReply × Status) :=
  let reply : GetPackageInfoReply := { package_info := none }
  let reply :=
    match data with
    | some d => { reply with package_info := some d }
    | none => reply
  [(reply, status)]

/-- `GcsPackageManager::HandleFetchPackage` from `gcs_package_manager.cc`:
the code-storage `Get` callback receives `(status, data)`; the reply's
`package_data` is set from `data->data()` when a record is present, and
exactly one reply is sent carrying `status`. -/
def handleFetchPackage (request : FetchPackageRequest) (status : Status)
    (data : Option CodeStorageTableData) : List (FetchPackageReply × Status) :=
  let reply : FetchPackageReply := { package_data := none }
  let reply :=
    match data with
    | some d => { reply with package_data := some d.data }
    | none => reply
  [(reply, status)]

/-- `GcsPackageManager::HandlePushPackage` from `gcs_package_manager.cc`:
builds `meta_data` with `skip_gc` and `uri` from the request and
`reference_count = 0`, issues the code-storage `Put`; in its callback, on
failure it logs and replies with the failing status, otherwise it issues the
package-table `Put` whose callback sends the reply.  `codePutStatus` and
`metaPutStatus` are the statuses the two table `Put`s report back. -/
def handlePushPackage (request : PushPackageRequest)
    (codePutStatus metaPutStatus : Status) : List PushEffect :=
  let package_id := request.package_id
  let meta_data : PackageTableData :=
    { skip_gc := request.skip_gc, reference_count := 0, uri := request.uri }
  PushEffect.codePut package_id request.code ::
    (if codePutStatus.ok then
      [PushEffect.metaPut package_id meta_data,
       PushEffect.sendReply metaPutStatus]
    else
      [PushEffect.sendReply codePutStatus])

/-- Recognises the reply effects of `handlePushPackage`. -/
def isReplyEffect : PushEffect → Bool
  | PushEffect.sendReply _ => true
  | _ => false

/-- Observable state of a `GcsPackageManager`: the two tables it points at and
its (never touched) `reference_count_` member. -/
structure PackageManagerState where
  packageTable : List (String × PackageTableData)
  codeStorageTable : List (String × String)
  referenceCount : List (String × Nat)
deriving DecidableEq

/-- `GcsPackageManager::LockPackage` from `gcs_package_manager.cc`: the body
is empty, so the state is returned unchanged. -/
def lockPackage (s : PackageManagerState) (package_id : String) :
    PackageManagerState :=
  s

/-- `GcsPackageManager::UnlockPackage` from `gcs_package_manager.cc`: the body
is empty, so the state is returned unchanged. -/
def unlockPackage (s : PackageManagerState) (package_id : String) :
    PackageManagerState :=
  s

/-! ## Reference Count Tracker

The tracker implementation is not under `src/` — `gcs_package_manager.h`
declares the `reference_count_` map and `gcs_job_manager.h` declares the
listener registry, but the mutating operations exist only in the
specification.  The definitions below are therefore modelled from the spec
(§3, §4.1, §4.2, §4.3). -/

/-- The count map: package identity to reference count, as an association
list with one entry per present key. -/
abbrev CountMap := List (String × Nat)

/-- The owner index: owner identity to the packages it referenced, in the
order the references were recorded. -/
abbrev OwnerIndex := List (String × List String)

/-- Modelled from the spec: state of the Reference Count Tracker (§3) —
the count-by-package map, the packages-by-owner index, and the
deletion-eligible events published so far, oldest first (§4.4).  The source
only declares the count map (`GcsPackageManager::reference_count_`). -/
structure TrackerState where
  counts : CountMap
  ownerIndex : OwnerIndex
  events : List String
deriving DecidableEq

/-- The tracker's state before any operation: both maps empty, nothing
published. -/
def initialState : TrackerState := ⟨[], [], []⟩

/-- Value stored for `p` in the count map, `0` if absent. -/
def countVal : CountMap → String → Nat
  | [], _ => 0
  | (q, n) :: rest, p => if q = p then n else countVal rest p

/-- Whether the count map has an entry for `p`. -/
def hasKey : CountMap → String → Bool
  | [], _ => false
  | (q, _) :: rest, p => q = p || hasKey rest p

/-- Modelled from the spec: `Count(packageIdentity)` (§4.1) — the current
count, `0` if absent. -/
def countOf (s : TrackerState) (p : String) : Nat := countVal s.counts p

/-- Increase `p`'s count by one, creating the entry at `1` if absent. -/
def bumpCount : CountMap → String → CountMap
  | [], p => [(p, 1)]
  | (q, n) :: rest, p =>
    if q = p then (q, n + 1) :: rest else (q, n) :: bumpCount rest p

/-- Append `p` to `o`'s index entry, creating the entry if absent. -/
def appendIdx : OwnerIndex → String → String → OwnerIndex
  | [], o, p => [(o, [p])]
  | (q, l) :: rest, o, p =>
    if q = o then (q, l ++ [p]) :: rest else (q, l) :: appendIdx rest o p

/-- The index entry recorded for owner `o`, if any. -/
def lookupIdx : OwnerIndex → String → Option (List String)
  | [], _ => none
  | (q, l) :: rest, o => if q = o then some l else lookupIdx rest o

/-- Remove every index entry keyed by `o`. -/
def eraseIdx : OwnerIndex → String → OwnerIndex
  | [], _ => []
  | (q, l) :: rest, o =>
    if q = o then eraseIdx rest o else (q, l) :: eraseIdx rest o

/-- Modelled from the spec: `Increment(ownerId, packageIdentity)` (§4.1) —
a no-op when the package identity is empty; otherwise bumps the package's
count (creating it at `1`) and appends the package to the owner's index
entry (creating it if absent).  No deduplication is performed. -/
def increment (s : TrackerState) (owner pkg : String) : TrackerState :=
  if pkg = "" then s
  else
    { s with
      counts := bumpCount s.counts pkg,
      ownerIndex := appendIdx s.ownerIndex owner pkg }

/-- The tracker's fault (§7): a decrement would drive a count negative. -/
inductive TrackerError
  | invariantViolation (pkg : String)
deriving DecidableEq

/-- Decrease `p`'s entry by one in the count map.  `none` signals that the
count would go negative (entry absent or already `0`).  On success returns
the new map and whether the count reached exactly zero, in which case the
entry has been removed. -/
def decEntry : CountMap → String → Option (CountMap × Bool)
  | [], _ => none
  | (q, n) :: rest, p =>
    if q = p then
      if n = 0 then none
      else if n = 1 then some (rest, true)
      else some ((q, n - 1) :: rest, false)
    else
      match decEntry rest p with
      | none => none
      | some (c, b) => some ((q, n) :: c, b)

/-- One step of `Decrement`: decrease `p`'s count, removing the entry and
publishing the deletion-eligible event when it reaches zero (§4.1, §4.3),
and faulting when the count would go negative. -/
def decOne (s : TrackerState) (p : String) : Except TrackerError TrackerState :=
  match decEntry s.counts p with
  | none => Except.error (TrackerError.invariantViolation p)
  | some (c, hitZero) =>
    Except.ok
      { s with
        counts := c,
        events := if hitZero then s.events ++ [p] else s.events }

/-- Decrease the count of every package in the list, left to right. -/
def decAll : TrackerState → List String → Except TrackerError TrackerState
  | s, [] => Except.ok s
  | s, p :: rest =>
    match decOne s p with
    | Except.error e => Except.error e
    | Except.ok s1 => decAll s1 rest

/-- Modelled from the spec: `Decrement(ownerId)` (§4.1) — decreases the
count of every package in the owner's index entry, faulting with
`InvariantViolation` if a count would go negative, then removes the owner's
index entry unconditionally; an owner with no entry is a no-op. -/
def decrement (s : TrackerState) (owner : String) :
    Except TrackerError TrackerState :=
  let pkgs := (lookupIdx s.ownerIndex owner).getD []
  match decAll s pkgs with
  | Except.error e => Except.error e
  | Except.ok s1 =>
    Except.ok { s1 with ownerIndex := eraseIdx s1.ownerIndex owner }

/-- Whether a `Decrement` outcome is the `InvariantViolation` fault. -/
def isInvariantViolation : Except TrackerError TrackerState → Bool
  | Except.error (TrackerError.invariantViolation _) => true
  | Except.ok _ => false

/-- A job record as exposed by the recovery snapshot (§6): owner identity,
terminal flag, and the runtime environment's package identity (empty when
the job has no package dependency). -/
structure JobRecord where
  ownerId : String
  isDead : Bool
  runtimeEnvUri : String
deriving DecidableEq

/-- An actor record as exposed by the recovery snapshot (§6). -/
structure ActorRecord where
  ownerId : String
  isDeadState : Bool
  runtimeEnvUri : String
deriving DecidableEq

/-- The recovery snapshot (§6): every persisted job and actor record. -/
structure Snapshot where
  jobs : List JobRecord
  actors : List ActorRecord
deriving DecidableEq

/-- Modelled from the spec: `Initialize(snapshot)` (§4.2) — for every job
record not in a terminal state and every actor record not in a terminal
state, in enumeration order, calls `Increment` with the owner identity and
the runtime environment's package identity. -/
def initTracker (snap : Snapshot) (s : TrackerState) : TrackerState :=
  let s1 := snap.jobs.foldl
    (fun t j => if j.isDead then t else increment t j.ownerId j.runtimeEnvUri) s
  snap.actors.foldl
    (fun t a =>
      if a.isDeadState then t else increment t a.ownerId a.runtimeEnvUri) s1

/-- A tracker operation: the three mutators of §4.1–§4.2. -/
inductive Op
  | inc (owner pkg : String)
  | dec (owner : String)
  | init (snap : Snapshot)
deriving DecidableEq

/-- Apply one operation; `none` when `Decrement` faults, after which the
tracker refuses further writes (§7). -/
def runOp (s : TrackerState) : Op → Option TrackerState
  | Op.inc o p => some (increment s o p)
  | Op.dec o =>
    match decrement s o with
    | Except.ok s1 => some s1
    | Except.error _ => none
  | Op.init snap => some (initTracker snap s)

/-- Apply a sequence of operations from a starting state. -/
def runOps : TrackerState → List Op → Option TrackerState
  | s, [] => some s
  | s, op :: rest =>
    match runOp s op with
    | some s1 => runOps s1 rest
    | none => none

/-- Total number of occurrences of `p` across all index entries. -/
def occInIdx (idx : OwnerIndex) (p : String) : Nat :=
  (idx.map (fun e => e.2.count p)).sum

/-- Total number of occurrences of `p` across the tracker's owner index. -/
def occTotal (s : TrackerState) (p : String) : Nat := occInIdx s.ownerIndex p

/-- Number of distinct owners whose index entry contains `p`. -/
def ownersContaining (s : TrackerState) (p : String) : Nat :=
  (((s.ownerIndex.filter (fun e => decide (p ∈ e.2))).map Prod.fst).dedup).length

/-! ## Count-map and owner-index lemmas -/

theorem countVal_eq_zero_of_not_mem {c : CountMap} {p : String}
    (h : p ∉ c.map Prod.fst) : countVal c p = 0 := by
  induction c with
  | nil => rfl
  | cons e rest ih =>
    obtain ⟨q, n⟩ := e
    simp only [List.map_cons, List.mem_cons] at h
    push_neg at h
    simp only [countVal]
    rw [if_neg (fun hq => h.1 hq.symm), ih h.2]

theorem countVal_bumpCount_self (c : CountMap) (p : String) :
    countVal (bumpCount c p) p = countVal c p + 1 := by
  induction c with
  | nil => simp [bumpCount, countVal]
  | cons e rest ih =>
    obtain ⟨q, n⟩ := e
    by_cases hq : q = p
    · simp [bumpCount, countVal, hq]
    · simp [bumpCount, countVal, hq, ih]

theorem countVal_bumpCount_ne {q p : String} (c : CountMap) (hqp : q ≠ p) :
    countVal (bumpCount c p) q = countVal c q := by
  induction c with
  | nil => simp [bumpCount, countVal, Ne.symm hqp]
  | cons e rest ih =>
    obtain ⟨r, n⟩ := e
    by_cases hrp : r = p
    · have hrq : ¬r = q := fun h => hqp (h.symm.trans hrp)
      simp only [bumpCount, if_pos hrp, countVal, if_neg hrq]
    · simp only [bumpCount, if_neg hrp, countVal, ih]

theorem mem_keys_bumpCount {r : String} {c : CountMap} {p : String}
    (h : r ∈ (bumpCount c p).map Prod.fst) :
    r ∈ c.map Prod.fst ∨ r = p := by
  induction c with
  | nil => simpa [bumpCount] using h
  | cons e rest ih =>
    obtain ⟨q, n⟩ := e
    by_cases hq : q = p
    · simp only [bumpCount, if_pos hq, List.map_cons, List.mem_cons] at h
      rcases h with h | h
      · exact Or.inr (h.trans hq)
      · exact Or.inl (List.mem_cons_of_mem _ h)
    · simp only [bumpCount, if_neg hq, List.map_cons, List.mem_cons] at h
      rcases h with h | h
      · exact Or.inl (List.mem_cons.mpr (Or.inl h))
      · rcases ih h with h1 | h1
        · exact Or.inl (List.mem_cons_of_mem _ h1)
        · exact Or.inr h1

theorem nodup_keys_bumpCount {c : CountMap} {p : String}
    (h : (c.map Prod.fst).Nodup) : ((bumpCount c p).map Prod.fst).Nodup := by
  induction c with
  | nil => simp [bumpCount]
  | cons e rest ih =>
    obtain ⟨q, n⟩ := e
    simp only [List.map_cons, List.nodup_cons] at h
    by_cases hq : q = p
    · simp only [bumpCount, if_pos hq, List.map_cons, List.nodup_cons]
      exact h
    · simp only [bumpCount, if_neg hq, List.map_cons, List.nodup_cons]
      refine ⟨fun hmem => ?_, ih h.2⟩
      rcases mem_keys_bumpCount hmem with h1 | h1
      · exact h.1 h1
      · exact hq h1

theorem pos_bumpCount {c : CountMap} {p : String}
    (h : ∀ e ∈ c, 0 < e.2) : ∀ e ∈ bumpCount c p, 0 < e.2 := by
  induction c with
  | nil =>
    intro e he
    simp only [bumpCount, List.mem_singleton] at he
    simp [he]
  | cons e0 rest ih =>
    obtain ⟨q, n⟩ := e0
    intro e he
    have hrest : ∀ x ∈ rest, 0 < x.2 := fun x hx => h x (List.mem_cons_of_mem _ hx)
    by_cases hq : q = p
    · simp only [bumpCount, if_pos hq, List.mem_cons] at he
      rcases he with he | he
      · simp [he]
      · exact hrest e he
    · simp only [bumpCount, if_neg hq, List.mem_cons] at he
      rcases he with he | he
      · exact he ▸ h (q, n) (List.mem_cons_self _ _)
      · exact ih hrest e he

theorem occInIdx_nil (p : String) : occInIdx [] p = 0 := rfl

theorem occInIdx_cons (q : String) (l : List String) (rest : OwnerIndex)
    (p : String) :
    occInIdx ((q, l) :: rest) p = l.count p + occInIdx rest p := by
  simp [occInIdx]

theorem occInIdx_appendIdx_self (idx : OwnerIndex) (o p : String) :
    occInIdx (appendIdx idx o p) p = occInIdx idx p + 1 := by
  induction idx with
  | nil => simp [appendIdx, occInIdx]
  | cons e rest ih =>
    obtain ⟨q, l⟩ := e
    by_cases hq : q = o
    · simp only [appendIdx, if_pos hq, occInIdx_cons, List.count_append,
        List.count_singleton, List.count_cons, List.count_nil,
        beq_self_eq_true, if_true]
      omega
    · simp only [appendIdx, if_neg hq, occInIdx_cons, ih]
      omega

theorem occInIdx_appendIdx_ne {q p : String} (idx : OwnerIndex) (o : String)
    (hqp : q ≠ p) :
    occInIdx (appendIdx idx o p) q = occInIdx idx q := by
  induction idx with
  | nil =>
    simp [appendIdx, occInIdx, List.count_cons, hqp]
  | cons e rest ih =>
    obtain ⟨r, l⟩ := e
    by_cases hr : r = o
    · simp [appendIdx, if_pos hr, occInIdx_cons, List.count_append,
        List.count_cons, hqp]
    · simp [appendIdx, if_neg hr, occInIdx_cons, ih]

/-! ## Decrement-step lemmas -/

theorem decEntry_none_of_countVal_zero {c : CountMap} {p : String}
    (h : countVal c p = 0) : decEntry c p = none := by
  induction c with
  | nil => rfl
  | cons e rest ih =>
    obtain ⟨q, n⟩ := e
    by_cases hq : q = p
    · simp only [countVal, if_pos hq] at h
      simp only [decEntry, if_pos hq, if_pos h]
    · simp only [countVal, if_neg hq] at h
      simp only [decEntry, if_neg hq, ih h]

theorem decEntry_countVal_ne {q p : String} {c c1 : CountMap} {b : Bool}
    (hqp : q ≠ p) (h : decEntry c p = some (c1, b)) :
    countVal c1 q = countVal c q := by
  induction c generalizing c1 b with
  | nil => simp [decEntry] at h
  | cons e rest ih =>
    obtain ⟨r, n⟩ := e
    by_cases hrp : r = p
    · have hrq : ¬r = q := fun hh => hqp (hh.symm.trans hrp)
      simp only [decEntry, if_pos hrp] at h
      by_cases hn0 : n = 0
      · simp [if_pos hn0] at h
      · rw [if_neg hn0] at h
        by_cases hn1 : n = 1
        · rw [if_pos hn1] at h
          simp only [Option.some.injEq, Prod.mk.injEq] at h
          obtain ⟨h1, h2⟩ := h
          subst h1
          simp only [countVal, if_neg hrq]
        · rw [if_neg hn1] at h
          simp only [Option.some.injEq, Prod.mk.injEq] at h
          obtain ⟨h1, h2⟩ := h
          subst h1
          simp only [countVal, if_neg hrq]
    · simp only [decEntry, if_neg hrp] at h
      cases hrec : decEntry rest p with
      | none => rw [hrec] at h; simp at h
      | some cb =>
        obtain ⟨c2, b2⟩ := cb
        rw [hrec] at h
        simp only [Option.some.injEq, Prod.mk.injEq] at h
        obtain ⟨h1, h2⟩ := h
        subst h1
        simp only [countVal]
        rw [ih hrec]

theorem decEntry_keys_sublist {c c1 : CountMap} {p : String} {b : Bool}
    (h : decEntry c p = some (c1, b)) :
    (c1.map Prod.fst).Sublist (c.map Prod.fst) := by
  induction c generalizing c1 b with
  | nil => simp [decEntry] at h
  | cons e rest ih =>
    obtain ⟨r, n⟩ := e
    by_cases hrp : r = p
    · simp only [decEntry, if_pos hrp] at h
      by_cases hn0 : n = 0
      · simp [if_pos hn0] at h
      · rw [if_neg hn0] at h
        by_cases hn1 : n = 1
        · rw [if_pos hn1] at h
          simp only [Option.some.injEq, Prod.mk.injEq] at h
          obtain ⟨h1, h2⟩ := h
          subst h1
          exact List.sublist_cons_self _ _
        · rw [if_neg hn1] at h
          simp only [Option.some.injEq, Prod.mk.injEq] at h
          obtain ⟨h1, h2⟩ := h
          subst h1
          simp
    · simp only [decEntry, if_neg hrp] at h
      cases hrec : decEntry rest p with
      | none => rw [hrec] at h; simp at h
      | some cb =>
        obtain ⟨c2, b2⟩ := cb
        rw [hrec] at h
        simp only [Option.some.injEq, Prod.mk.injEq] at h
        obtain ⟨h1, h2⟩ := h
        subst h1
        simpa using List.Sublist.cons₂ r (ih hrec)

theorem decEntry_pos {c c1 : CountMap} {p : String} {b : Bool}
    (hpos : ∀ e ∈ c, 0 < e.2) (h : decEntry c p = some (c1, b)) :
    ∀ e ∈ c1, 0 < e.2 := by
  induction c generalizing c1 b with
  | nil => simp [decEntry] at h
  | cons e0 rest ih =>
    obtain ⟨r, n⟩ := e0
    have hrest : ∀ x ∈ rest, 0 < x.2 :=
      fun x hx => hpos x (List.mem_cons_of_mem _ hx)
    by_cases hrp : r = p
    · simp only [decEntry, if_pos hrp] at h
      by_cases hn0 : n = 0
      · simp [if_pos hn0] at h
      · rw [if_neg hn0] at h
        by_cases hn1 : n = 1
        · rw [if_pos hn1] at h
          simp only [Option.some.injEq, Prod.mk.injEq] at h
          obtain ⟨h1, h2⟩ := h
          subst h1
          exact hrest
        · rw [if_neg hn1] at h
          simp only [Option.some.injEq, Prod.mk.injEq] at h
          obtain ⟨h1, h2⟩ := h
          subst h1
          intro e he
          rcases List.mem_cons.mp he with he | he
          · subst he
            simp only
            omega
          · exact hrest e he
    · simp only [decEntry, if_neg hrp] at h
      cases hrec : decEntry rest p with
      | none => rw [hrec] at h; simp at h
      | some cb =>
        obtain ⟨c2, b2⟩ := cb
        rw [hrec] at h
        simp only [Option.some.injEq, Prod.mk.injEq] at h
        obtain ⟨h1, h2⟩ := h
        subst h1
        intro e he
        rcases List.mem_cons.mp he with he | he
        · exact he ▸ hpos (r, n) (List.mem_cons_self _ _)
        · exact ih hrest hrec e he

theorem decEntry_countVal_self {c c1 : CountMap} {p : String} {b : Bool}
    (hnd : (c.map Prod.fst).Nodup) (h : decEntry c p = some (c1, b)) :
    countVal c1 p + 1 = countVal c p := by
  induction c generalizing c1 b with
  | nil => simp [decEntry] at h
  | cons e rest ih =>
    obtain ⟨r, n⟩ := e
    simp only [List.map_cons, List.nodup_cons] at hnd
    by_cases hrp : r = p
    · simp only [decEntry, if_pos hrp] at h
      by_cases hn0 : n = 0
      · simp [if_pos hn0] at h
      · rw [if_neg hn0] at h
        by_cases hn1 : n = 1
        · rw [if_pos hn1] at h
          simp only [Option.some.injEq, Prod.mk.injEq] at h
          obtain ⟨h1, h2⟩ := h
          subst h1
          have hnotin : p ∉ rest.map Prod.fst := hrp ▸ hnd.1
          rw [countVal_eq_zero_of_not_mem hnotin]
          simp [countVal, if_pos hrp, hn1]
        · rw [if_neg hn1] at h
          simp only [Option.some.injEq, Prod.mk.injEq] at h
          obtain ⟨h1, h2⟩ := h
          subst h1
          simp only [countVal, if_pos hrp]
          omega
    · simp only [decEntry, if_neg hrp] at h
      cases hrec : decEntry rest p with
      | none => rw [hrec] at h; simp at h
      | some cb =>
        obtain ⟨c2, b2⟩ := cb
        rw [hrec] at h
        simp only [Option.some.injEq, Prod.mk.injEq] at h
        obtain ⟨h1, h2⟩ := h
        subst h1
        simp only [countVal, if_neg hrp]
        exact ih hnd.2 hrec

theorem decOne_err_of_zero {s : TrackerState} {p : String}
    (h : countVal s.counts p = 0) :
    decOne s p = Except.error (TrackerError.invariantViolation p) := by
  simp [decOne, decEntry_none_of_countVal_zero h]

theorem decOne_ok_decEntry {s s1 : TrackerState} {p : String}
    (h : decOne s p = Except.ok s1) :
    ∃ c1 b, decEntry s.counts p = some (c1, b) ∧ s1.counts = c1 ∧
      s1.ownerIndex = s.ownerIndex := by
  cases hde : decEntry s.counts p with
  | none => simp [decOne, hde] at h
  | some cb =>
    obtain ⟨c1, b⟩ := cb
    refine ⟨c1, b, rfl, ?_, ?_⟩
    · simp only [decOne, hde] at h
      cases h
      rfl
    · simp only [decOne, hde] at h
      cases h
      rfl

theorem decOne_ok_counts_ne {s s1 : TrackerState} {q p : String}
    (hqp : q ≠ p) (h : decOne s p = Except.ok s1) :
    countVal s1.counts q = countVal s.counts q := by
  obtain ⟨c1, b, hde, hc, _⟩ := decOne_ok_decEntry h
  rw [hc]
  exact decEntry_countVal_ne hqp hde

theorem decOne_ok_counts_self {s s1 : TrackerState} {p : String}
    (hnd : (s.counts.map Prod.fst).Nodup) (h : decOne s p = Except.ok s1) :
    countVal s1.counts p + 1 = countVal s.counts p := by
  obtain ⟨c1, b, hde, hc, _⟩ := decOne_ok_decEntry h
  rw [hc]
  exact decEntry_countVal_self hnd hde

theorem decOne_ok_nodup {s s1 : TrackerState} {p : String}
    (hnd : (s.counts.map Prod.fst).Nodup) (h : decOne s p = Except.ok s1) :
    (s1.counts.map Prod.fst).Nodup := by
  obtain ⟨c1, b, hde, hc, _⟩ := decOne_ok_decEntry h
  rw [hc]
  exact (decEntry_keys_sublist hde).nodup hnd

theorem decOne_ok_pos {s s1 : TrackerState} {p : String}
    (hpos : ∀ e ∈ s.counts, 0 < e.2) (h : decOne s p = Except.ok s1) :
    ∀ e ∈ s1.counts, 0 < e.2 := by
  obtain ⟨c1, b, hde, hc, _⟩ := decOne_ok_decEntry h
  rw [hc]
  exact decEntry_pos hpos hde

theorem decOne_ok_ownerIndex {s s1 : TrackerState} {p : String}
    (h : decOne s p = Except.ok s1) : s1.ownerIndex = s.ownerIndex := by
  obtain ⟨c1, b, hde, _, hidx⟩ := decOne_ok_decEntry h
  exact hidx

theorem decAll_ok_spec {l : List String} {s s1 : TrackerState}
    (hnd : (s.counts.map Prod.fst).Nodup) (hpos : ∀ e ∈ s.counts, 0 < e.2)
    (h : decAll s l = Except.ok s1) :
    (∀ q, countVal s1.counts q + l.count q = countVal s.counts q) ∧
    (s1.counts.map Prod.fst).Nodup ∧ (∀ e ∈ s1.counts, 0 < e.2) ∧
    s1.ownerIndex = s.ownerIndex := by
  induction l generalizing s with
  | nil =>
    simp only [decAll, Except.ok.injEq] at h
    subst h
    exact ⟨fun q => by simp, hnd, hpos, rfl⟩
  | cons p rest ih =>
    simp only [decAll] at h
    cases hd : decOne s p with
    | error e => rw [hd] at h; cases h
    | ok s2 =>
      rw [hd] at h
      obtain ⟨ihc, ihnd, ihpos, ihidx⟩ :=
        ih (decOne_ok_nodup hnd hd) (decOne_ok_pos hpos hd) h
      refine ⟨?_, ihnd, ihpos, ihidx.trans (decOne_ok_ownerIndex hd)⟩
      intro q
      by_cases hq : q = p
      · subst hq
        have h1 := decOne_ok_counts_self hnd hd
        have h2 := ihc q
        have h3 : (q :: rest).count q = rest.count q + 1 := by
          simp [List.count_cons]
        omega
      · have h1 := decOne_ok_counts_ne hq hd
        have h2 := ihc q
        have h3 : (p :: rest).count q = rest.count q := by
          simp [List.count_cons, hq]
        omega

theorem decAll_err_of_zero {l : List String} {s : TrackerState} {p : String}
    (hmem : p ∈ l) (h0 : countVal s.counts p = 0) :
    isInvariantViolation (decAll s l) = true := by
  induction l generalizing s with
  | nil => cases hmem
  | cons r rest ih =>
    simp only [decAll]
    by_cases hrp : r = p
    · subst hrp
      rw [decOne_err_of_zero h0]
      rfl
    · cases hd : decOne s r with
      | error e =>
        cases e
        rfl
      | ok s2 =>
        have hmem2 : p ∈ rest := by
          rcases List.mem_cons.mp hmem with h | h
          · exact absurd h.symm hrp
          · exact h
        have h02 : countVal s2.counts p = 0 := by
          rw [decOne_ok_counts_ne (fun hh : p = r => hrp hh.symm) hd, h0]
        exact ih hmem2 h02

/-! ## Owner-index erase and lookup lemmas -/

theorem lookupIdx_eq_none_of_not_mem {idx : OwnerIndex} {o : String}
    (h : o ∉ idx.map Prod.fst) : lookupIdx idx o = none := by
  induction idx with
  | nil => rfl
  | cons e rest ih =>
    obtain ⟨q, l⟩ := e
    simp only [List.map_cons, List.mem_cons] at h
    push_neg at h
    simp only [lookupIdx, if_neg (fun hq : q = o => h.1 hq.symm)]
    exact ih h.2

theorem eraseIdx_of_lookupIdx_none {idx : OwnerIndex} {o : String}
    (h : lookupIdx idx o = none) : eraseIdx idx o = idx := by
  induction idx with
  | nil => rfl
  | cons e rest ih =>
    obtain ⟨q, l⟩ := e
    by_cases hq : q = o
    · simp [lookupIdx, if_pos hq] at h
    · simp only [lookupIdx, if_neg hq] at h
      simp only [eraseIdx, if_neg hq, ih h]

theorem lookupIdx_eraseIdx_self (idx : OwnerIndex) (o : String) :
    lookupIdx (eraseIdx idx o) o = none := by
  induction idx with
  | nil => rfl
  | cons e rest ih =>
    obtain ⟨q, l⟩ := e
    by_cases hq : q = o
    · simp only [eraseIdx, if_pos hq]
      exact ih
    · simp only [eraseIdx, if_neg hq, lookupIdx, if_neg hq]
      exact ih

theorem keys_eraseIdx_sublist (idx : OwnerIndex) (o : String) :
    ((eraseIdx idx o).map Prod.fst).Sublist (idx.map Prod.fst) := by
  induction idx with
  | nil => simp [eraseIdx]
  | cons e rest ih =>
    obtain ⟨q, l⟩ := e
    by_cases hq : q = o
    · simp only [eraseIdx, if_pos hq, List.map_cons]
      exact ih.trans (List.sublist_cons_self _ _)
    · simp only [eraseIdx, if_neg hq, List.map_cons]
      exact List.Sublist.cons₂ q ih

theorem occInIdx_eraseIdx {idx : OwnerIndex} {o : String}
    (hnd : (idx.map Prod.fst).Nodup) (q : String) :
    occInIdx (eraseIdx idx o) q + ((lookupIdx idx o).getD []).count q =
      occInIdx idx q := by
  induction idx with
  | nil => rfl
  | cons e rest ih =>
    obtain ⟨r, l⟩ := e
    simp only [List.map_cons, List.nodup_cons] at hnd
    by_cases hr : r = o
    · have hnotin : o ∉ rest.map Prod.fst := hr ▸ hnd.1
      rw [eraseIdx, if_pos hr, lookupIdx, if_pos hr,
        eraseIdx_of_lookupIdx_none (lookupIdx_eq_none_of_not_mem hnotin),
        occInIdx_cons]
      simp only [Option.getD_some]
      omega
    · rw [eraseIdx, if_neg hr, lookupIdx, if_neg hr, occInIdx_cons,
        occInIdx_cons]
      have := ih hnd.2
      omega

/-! ## The tracker invariant and its preservation -/

theorem mem_keys_appendIdx {r : String} {idx : OwnerIndex} {o p : String}
    (h : r ∈ (appendIdx idx o p).map Prod.fst) :
    r ∈ idx.map Prod.fst ∨ r = o := by
  induction idx with
  | nil => simpa [appendIdx] using h
  | cons e rest ih =>
    obtain ⟨q, l⟩ := e
    by_cases hq : q = o
    · simp only [appendIdx, if_pos hq, List.map_cons, List.mem_cons] at h
      rcases h with h | h
      · exact Or.inr (h.trans hq)
      · exact Or.inl (List.mem_cons_of_mem _ h)
    · simp only [appendIdx, if_neg hq, List.map_cons, List.mem_cons] at h
      rcases h with h | h
      · exact Or.inl (List.mem_cons.mpr (Or.inl h))
      · rcases ih h with h1 | h1
        · exact Or.inl (List.mem_cons_of_mem _ h1)
        · exact Or.inr h1

theorem nodup_keys_appendIdx {idx : OwnerIndex} {o p : String}
    (h : (idx.map Prod.fst).Nodup) :
    ((appendIdx idx o p).map Prod.fst).Nodup := by
  induction idx with
  | nil => simp [appendIdx]
  | cons e rest ih =>
    obtain ⟨q, l⟩ := e
    simp only [List.map_cons, List.nodup_cons] at h
    by_cases hq : q = o
    · simp only [appendIdx, if_pos hq, List.map_cons, List.nodup_cons]
      exact h
    · simp only [appendIdx, if_neg hq, List.map_cons, List.nodup_cons]
      refine ⟨fun hmem => ?_, ih h.2⟩
      rcases mem_keys_appendIdx hmem with h1 | h1
      · exact h.1 h1
      · exact hq h1

theorem increment_of_empty (s : TrackerState) (o : String) :
    increment s o "" = s := by
  simp [increment]

theorem increment_counts {p : String} (s : TrackerState) (o : String)
    (hp : p ≠ "") : (increment s o p).counts = bumpCount s.counts p := by
  simp [increment, hp]

theorem increment_ownerIndex {p : String} (s : TrackerState) (o : String)
    (hp : p ≠ "") :
    (increment s o p).ownerIndex = appendIdx s.ownerIndex o p := by
  simp [increment, hp]

/-- The internal consistency invariant of the tracker state: both maps have
unique keys, counts are positive, and each count equals the total number of
occurrences of the package across all owner index entries. -/
def TrackerInv (s : TrackerState) : Prop :=
  (s.counts.map Prod.fst).Nodup ∧
  (s.ownerIndex.map Prod.fst).Nodup ∧
  (∀ e ∈ s.counts, 0 < e.2) ∧
  (∀ p, countVal s.counts p = occInIdx s.ownerIndex p)

theorem trackerInv_initialState : TrackerInv initialState :=
  ⟨List.nodup_nil, List.nodup_nil, by simp [initialState], fun _ => rfl⟩

theorem trackerInv_increment {s : TrackerState} (o p : String)
    (h : TrackerInv s) : TrackerInv (increment s o p) := by
  obtain ⟨h1, h2, h3, h4⟩ := h
  by_cases hp : p = ""
  · rw [hp, increment_of_empty]
    exact ⟨h1, h2, h3, h4⟩
  · refine ⟨?_, ?_, ?_, ?_⟩
    · rw [increment_counts s o hp]
      exact nodup_keys_bumpCount h1
    · rw [increment_ownerIndex s o hp]
      exact nodup_keys_appendIdx h2
    · rw [increment_counts s o hp]
      exact pos_bumpCount h3
    · intro q
      rw [increment_counts s o hp, increment_ownerIndex s o hp]
      by_cases hq : q = p
      · subst hq
        rw [countVal_bumpCount_self, occInIdx_appendIdx_self, h4]
      · rw [countVal_bumpCount_ne _ hq, occInIdx_appendIdx_ne _ _ hq, h4]

theorem trackerInv_decrement {s s1 : TrackerState} {o : String}
    (h : TrackerInv s) (hd : decrement s o = Except.ok s1) : TrackerInv s1 := by
  obtain ⟨h1, h2, h3, h4⟩ := h
  simp only [decrement] at hd
  cases hda : decAll s ((lookupIdx s.ownerIndex o).getD []) with
  | error e => rw [hda] at hd; cases hd
  | ok s2 =>
    rw [hda] at hd
    obtain ⟨hc, hnd, hpos, hidx⟩ := decAll_ok_spec h1 h3 hda
    cases hd
    refine ⟨hnd, ?_, hpos, ?_⟩
    · rw [hidx]
      exact (keys_eraseIdx_sublist s.ownerIndex o).nodup h2
    · intro q
      dsimp only
      have he := occInIdx_eraseIdx (o := o) h2 q
      have hcq := hc q
      have h4q := h4 q
      rw [hidx]
      omega

theorem trackerInv_foldl {α : Type} (f : TrackerState → α → TrackerState)
    (hf : ∀ t a, TrackerInv t → TrackerInv (f t a)) :
    ∀ (l : List α) (s : TrackerState), TrackerInv s → TrackerInv (l.foldl f s)
  | [], _, h => h
  | a :: rest, s, h => trackerInv_foldl f hf rest (f s a) (hf s a h)

theorem trackerInv_initTracker {s : TrackerState} (snap : Snapshot)
    (h : TrackerInv s) : TrackerInv (initTracker snap s) := by
  refine trackerInv_foldl _ ?_ snap.actors _
    (trackerInv_foldl _ ?_ snap.jobs s h)
  · intro t a ht
    by_cases hd : a.isDeadState
    · simpa [hd] using ht
    · simpa [hd] using trackerInv_increment a.ownerId a.runtimeEnvUri ht
  · intro t j ht
    by_cases hd : j.isDead
    · simpa [hd] using ht
    · simpa [hd] using trackerInv_increment j.ownerId j.runtimeEnvUri ht

theorem trackerInv_runOp {s s1 : TrackerState} {op : Op}
    (h : TrackerInv s) (hr : runOp s op = some s1) : TrackerInv s1 := by
  cases op with
  | inc o p =>
    simp only [runOp, Option.some.injEq] at hr
    exact hr ▸ trackerInv_increment o p h
  | dec o =>
    simp only [runOp] at hr
    cases hd : decrement s o with
    | ok s2 =>
      rw [hd] at hr
      simp only [Option.some.injEq] at hr
      exact hr ▸ trackerInv_decrement h hd
    | error e => rw [hd] at hr; cases hr
  | init snap =>
    simp only [runOp, Option.some.injEq] at hr
    exact hr ▸ trackerInv_initTracker snap h

theorem trackerInv_runOps {l : List Op} {s s1 : TrackerState}
    (h : TrackerInv s) (hr : runOps s l = some s1) : TrackerInv s1 := by
  induction l generalizing s with
  | nil =>
    simp only [runOps, Option.some.injEq] at hr
    exact hr ▸ h
  | cons op rest ih =>
    simp only [runOps] at hr
    cases ho : runOp s op with
    | none => rw [ho] at hr; cases hr
    | some s2 =>
      rw [ho] at hr
      exact ih (trackerInv_runOp h ho) hr

theorem hasKey_iff_pos {c : CountMap} (hpos : ∀ e ∈ c, 0 < e.2) (p : String) :
    hasKey c p = true ↔ 0 < countVal c p := by
  induction c with
  | nil => simp [hasKey, countVal]
  | cons e rest ih =>
    obtain ⟨q, n⟩ := e
    have hrest : ∀ x ∈ rest, 0 < x.2 :=
      fun x hx => hpos x (List.mem_cons_of_mem _ hx)
    by_cases hq : q = p
    · have hdec : decide (q = p) = true := decide_eq_true hq
      simp only [hasKey, countVal, if_pos hq, hdec, Bool.true_or, true_iff]
      exact hpos (q, n) (List.mem_cons_self _ _)
    · have hdec : decide (q = p) = false := decide_eq_false hq
      simp only [hasKey, countVal, if_neg hq, hdec, Bool.false_or]
      exact ih hrest

/-! ## Claim theorems: the tracker -/

/-- C1 (amended): in every state reachable by any sequence of Increment,
Decrement and Initialize operations from the empty tracker, for every
package identity `p`, `Count(p)` equals the total number of occurrences of
`p` across all owner index entries (counting an owner that incremented the
same package twice with multiplicity), an entry for `p` exists in the count
map iff its count is positive, and no count-map entry is `≤ 0`. -/
theorem reachable_invariant_counts_occurrences (ops : List Op)
    (s : TrackerState) (h : runOps initialState ops = some s) :
    (∀ p, countOf s p = occTotal s p) ∧
    (∀ p, hasKey s.counts p = true ↔ 0 < countOf s p) ∧
    ∀ e ∈ s.counts, 0 < e.2 := by
  obtain ⟨h1, h2, h3, h4⟩ := trackerInv_runOps trackerInv_initialState h
  exact ⟨fun p => h4 p, fun p => hasKey_iff_pos h3 p, h3⟩

/-- The state reached by Increment("a","p") twice: count 2, one owner. -/
def doubleIncState : TrackerState := ⟨[("p", 2)], [("a", ["p", "p"])], []⟩

/-- C1 counterexample: after the reachable sequence Increment("a","p"),
Increment("a","p") the count of "p" is 2 while exactly one distinct owner's
index entry contains "p", so `Count(p)` does not equal the number of
distinct owners referencing `p` in every reachable state. -/
theorem count_vs_distinct_owners_cex :
    runOps initialState [Op.inc "a" "p", Op.inc "a" "p"] =
      some doubleIncState ∧
    countOf doubleIncState "p" = 2 ∧
    ownersContaining doubleIncState "p" = 1 ∧
    countOf doubleIncState "p" ≠ ownersContaining doubleIncState "p" :=
  ⟨by decide, by decide, by decide, by decide⟩

/-- The state reached by a single Increment("a","p"). -/
def singleIncState : TrackerState := ⟨[("p", 1)], [("a", ["p"])], []⟩

/-- Witness: the amended C1 invariant instantiated at the concrete reachable
state after Increment("a","p"). -/
theorem reachable_invariant_counts_occurrences_witness :
    runOps initialState [Op.inc "a" "p"] = some singleIncState ∧
    countOf singleIncState "p" = occTotal singleIncState "p" :=
  ⟨by decide,
   (reachable_invariant_counts_occurrences [Op.inc "a" "p"] singleIncState
     (by decide)).1 "p"⟩

/-- C2: whenever an owner's index entry contains a package whose current
count is zero, Decrement for that owner fails with the InvariantViolation
fault instead of clamping the count or tolerating it. -/
theorem decrement_zero_count_invariant_violation (s : TrackerState)
    (o p : String) (l : List String)
    (hl : lookupIdx s.ownerIndex o = some l) (hp : p ∈ l)
    (h0 : countOf s p = 0) :
    isInvariantViolation (decrement s o) = true := by
  have h := decAll_err_of_zero (s := s) hp h0
  simp only [decrement, hl, Option.getD_some]
  cases hda : decAll s l with
  | error e =>
    cases e
    rfl
  | ok s1 =>
    rw [hda] at h
    simp [isInvariantViolation] at h

/-- A state whose owner index points at a package with count zero. -/
def zeroCountState : TrackerState := ⟨[], [("a", ["p"])], []⟩

/-- Witness: C2 at the concrete state whose index entry for "a" contains
"p" while "p" has count zero. -/
theorem decrement_zero_count_invariant_violation_witness :
    lookupIdx zeroCountState.ownerIndex "a" = some ["p"] ∧
    "p" ∈ ["p"] ∧ countOf zeroCountState "p" = 0 ∧
    isInvariantViolation (decrement zeroCountState "a") = true :=
  ⟨by decide, by decide, by decide,
   decrement_zero_count_invariant_violation zeroCountState "a" "p" ["p"]
     (by decide) (by decide) (by decide)⟩

/-- C3: after a successful Decrement for an owner, a second Decrement for
the same owner returns the same state unchanged (the owner's index entry is
already absent), and in general Decrement for an owner with no recorded
references is a no-op rather than an error. -/
theorem decrement_idempotent_teardown :
    (∀ (s s1 : TrackerState) (o : String),
      decrement s o = Except.ok s1 → decrement s1 o = Except.ok s1) ∧
    (∀ (s : TrackerState) (o : String),
      lookupIdx s.ownerIndex o = none → decrement s o = Except.ok s) := by
  have hnone : ∀ (s : TrackerState) (o : String),
      lookupIdx s.ownerIndex o = none → decrement s o = Except.ok s := by
    intro s o h
    simp only [decrement, h, Option.getD_none, decAll]
    rw [eraseIdx_of_lookupIdx_none h]
  refine ⟨?_, hnone⟩
  intro s s1 o h
  simp only [decrement] at h
  cases hda : decAll s ((lookupIdx s.ownerIndex o).getD []) with
  | error e => rw [hda] at h; cases h
  | ok s2 =>
    rw [hda] at h
    simp only [Except.ok.injEq] at h
    subst h
    exact hnone _ o (lookupIdx_eraseIdx_self _ o)

/-- Witness: C3 on the concrete teardown of owner "a" holding one reference
to "p". -/
theorem decrement_idempotent_teardown_witness :
    decrement ⟨[("p", 1)], [("a", ["p"])], []⟩ "a" =
      Except.ok ⟨[], [], ["p"]⟩ ∧
    decrement ⟨[], [], ["p"]⟩ "a" = Except.ok ⟨[], [], ["p"]⟩ :=
  ⟨by rfl,
   decrement_idempotent_teardown.1 ⟨[("p", 1)], [("a", ["p"])], []⟩
     ⟨[], [], ["p"]⟩ "a" (by rfl)⟩

/-- Increment("a","pkg1") of the §8 order-independence scenario. -/
def incA : Op := Op.inc "a" "pkg1"

/-- Increment("b","pkg1") of the §8 order-independence scenario. -/
def incB : Op := Op.inc "b" "pkg1"

/-- Decrement("a") of the §8 order-independence scenario. -/
def decA : Op := Op.dec "a"

/-- Decrement("b") of the §8 order-independence scenario. -/
def decB : Op := Op.dec "b"

/-- Final Count("pkg1") and the emitted event list after running a sequence
of operations from the empty state. -/
def probePkg1 (ops : List Op) : Option (Nat × List String) :=
  (runOps initialState ops).map (fun s => (countOf s "pkg1", s.events))

/-- C4 counterexample: the interleaving Increment(a), Decrement(a),
Increment(b), Decrement(b) is consistent with each owner's own
increment-before-decrement ordering, ends with Count("pkg1") = 0, but emits
the deletion-eligible event for "pkg1" twice, not exactly once. -/
theorem interleaving_single_event_cex :
    probePkg1 [incA, decA, incB, decB] = some (0, ["pkg1", "pkg1"]) ∧
    (["pkg1", "pkg1"].count "pkg1" = 1 → False) :=
  ⟨by decide, by decide⟩

/-- C4 (amended): each of the six interleavings consistent with both
owners' increment-before-decrement orderings ends with Count("pkg1") = 0,
and a deletion-eligible event for "pkg1" is emitted exactly on the calls
that take the count from 1 to 0: the four interleavings in which both
increments precede both decrements emit exactly one event, on the final
decrement (no event has been emitted after the first three operations,
where the count is still 1), while the two interleavings in which one
owner's decrement precedes the other owner's increment cross zero twice and
emit one event at each crossing, two in total. -/
theorem interleaving_count_zero_events :
    (probePkg1 [incA, incB, decA, decB] = some (0, ["pkg1"]) ∧
      probePkg1 [incA, incB, decA] = some (1, [])) ∧
    (probePkg1 [incA, incB, decB, decA] = some (0, ["pkg1"]) ∧
      probePkg1 [incA, incB, decB] = some (1, [])) ∧
    (probePkg1 [incB, incA, decA, decB] = some (0, ["pkg1"]) ∧
      probePkg1 [incB, incA, decA] = some (1, [])) ∧
    (probePkg1 [incB, incA, decB, decA] = some (0, ["pkg1"]) ∧
      probePkg1 [incB, incA, decB] = some (1, [])) ∧
    (probePkg1 [incA, decA, incB, decB] = some (0, ["pkg1", "pkg1"]) ∧
      probePkg1 [incA, decA] = some (0, ["pkg1"]) ∧
      probePkg1 [incA, decA, incB] = some (1, ["pkg1"])) ∧
    (probePkg1 [incB, decB, incA, decA] = some (0, ["pkg1", "pkg1"]) ∧
      probePkg1 [incB, decB] = some (0, ["pkg1"]) ∧
      probePkg1 [incB, decB, incA] = some (1, ["pkg1"])) :=
  ⟨⟨by decide, by decide⟩, ⟨by decide, by decide⟩, ⟨by decide, by decide⟩,
   ⟨by decide, by decide⟩, ⟨by decide, by decide, by decide⟩,
   ⟨by decide, by decide, by decide⟩⟩

/-- The §8 recovery snapshot: two live jobs and one live actor referencing
"pkg-A", plus one dead job also referencing "pkg-A". -/
def recoverySnapshot : Snapshot :=
  { jobs := [⟨"job1", false, "pkg-A"⟩, ⟨"job2", false, "pkg-A"⟩,
             ⟨"deadjob", true, "pkg-A"⟩],
    actors := [⟨"actor1", false, "pkg-A"⟩] }

/-- C5: Initialize over the recovery snapshot increments exactly once per
non-terminal job and actor record and skips dead records: Count("pkg-A")
ends at 3, carried by the three distinct live owners. -/
theorem recovery_skips_dead_records :
    countOf (initTracker recoverySnapshot initialState) "pkg-A" = 3 ∧
    occTotal (initTracker recoverySnapshot initialState) "pkg-A" = 3 ∧
    ownersContaining (initTracker recoverySnapshot initialState) "pkg-A" = 3 :=
  ⟨by decide, by decide, by decide⟩

/-! ## Job Completion Notifier -/

/-- Outcome of one listener invocation: success, or a failure that the
fan-out captures and logs. -/
inductive ListenerOutcome
  | ok
  | failed (msg : String)
deriving DecidableEq

/-- A registered job-finished listener, as held in
`GcsJobManager::job_finished_listeners_`: invoked with the finished job's
identity, it either succeeds or fails. -/
abbrev JobListener := String → ListenerOutcome

/-- Modelled from the spec: `NotifyJobFinished(jobId)` fan-out (§4.3) — the
`GcsJobManager` implementation is not under `src/`, only the declarations of
`AddJobFinishedListener` and `job_finished_listeners_`.  Every registered
listener is invoked in registration order with the job identity; each
invocation's outcome is captured into the returned log and the fan-out
continues regardless of the outcome. -/
def notifyJobFinished : List JobListener → String →
    List (String × ListenerOutcome)
  | [], _ => []
  | l :: rest, jobId => (jobId, l jobId) :: notifyJobFinished rest jobId

/-- C6: NotifyJobFinished invokes every registered listener, in registration
order, with the finished job's identity: the invocation log has one entry
per listener and its `i`-th entry records listener `i` applied to the job
identity, regardless of whether any earlier listener failed — a failure is
captured in the log and does not prevent later listeners from running. -/
theorem notify_invokes_all_listeners_in_order (ls : List JobListener)
    (jobId : String) :
    (notifyJobFinished ls jobId).length = ls.length ∧
    ∀ (i : Nat) (h1 : i < ls.length)
      (h2 : i < (notifyJobFinished ls jobId).length),
      (notifyJobFinished ls jobId).get ⟨i, h2⟩ =
        (jobId, ls.get ⟨i, h1⟩ jobId) := by
  induction ls with
  | nil => exact ⟨rfl, fun i h1 h2 => absurd h1 (Nat.not_lt_zero i)⟩
  | cons l rest ih =>
    refine ⟨?_, ?_⟩
    · simp only [notifyJobFinished, List.length_cons, ih.1]
    · intro i h1 h2
      cases i with
      | zero => rfl
      | succ n =>
        exact ih.2 n (Nat.lt_of_succ_lt_succ h1) (Nat.lt_of_succ_lt_succ h2)

/-- Two registered listeners, the first of which always fails. -/
def failingListeners : List JobListener :=
  [fun _ => ListenerOutcome.failed "boom", fun _ => ListenerOutcome.ok]

/-- Witness: C6 with a first listener that fails — the second listener is
still invoked with the job identity and its outcome recorded. -/
theorem notify_invokes_all_listeners_in_order_witness :
    (notifyJobFinished failingListeners "job1").length = 2 ∧
    (notifyJobFinished failingListeners "job1").get ⟨0, by decide⟩ =
      ("job1", ListenerOutcome.failed "boom") ∧
    (notifyJobFinished failingListeners "job1").get ⟨1, by decide⟩ =
      ("job1", ListenerOutcome.ok) :=
  ⟨(notify_invokes_all_listeners_in_order failingListeners "job1").1,
   (notify_invokes_all_listeners_in_order failingListeners "job1").2 0
     (by decide) (by decide),
   (notify_invokes_all_listeners_in_order failingListeners "job1").2 1
     (by decide) (by decide)⟩

/-! ## Claim theorems: the RPC handlers -/

/-- C7: the LockPackage and UnlockPackage stubs change no observable
state — any state before a call equals the state after it. -/
theorem lock_unlock_package_noop (s : PackageManagerState)
    (package_id : String) :
    lockPackage s package_id = s ∧ unlockPackage s package_id = s :=
  ⟨rfl, rfl⟩

theorem handlePushPackage_of_ok {request : PushPackageRequest}
    {cs ms : Status} (hok : cs.ok = true) :
    handlePushPackage request cs ms =
      [PushEffect.codePut request.package_id request.code,
       PushEffect.metaPut request.package_id
         ⟨request.skip_gc, 0, request.uri⟩,
       PushEffect.sendReply ms] := by
  simp [handlePushPackage, hok]

theorem handlePushPackage_of_fail {request : PushPackageRequest}
    {cs ms : Status} (hok : cs.ok = false) :
    handlePushPackage request cs ms =
      [PushEffect.codePut request.package_id request.code,
       PushEffect.sendReply cs] := by
  simp [handlePushPackage, hok]

/-- C8: every package-metadata record written by HandlePushPackage carries
the request's `skip_gc` and `uri` and a `reference_count` of `0`, the
metadata put is issued (for the request's package identity) whenever the
code-storage put succeeded, and any metadata put in the effect trace is
preceded by the code-storage put of the request's code bytes. -/
theorem push_package_meta_fields_after_code (request : PushPackageRequest)
    (cs ms : Status) :
    (∀ pid md, PushEffect.metaPut pid md ∈ handlePushPackage request cs ms →
      pid = request.package_id ∧ md.skip_gc = request.skip_gc ∧
      md.uri = request.uri ∧ md.reference_count = 0) ∧
    (cs.ok = true →
      PushEffect.metaPut request.package_id
        ⟨request.skip_gc, 0, request.uri⟩ ∈ handlePushPackage request cs ms) ∧
    (∀ i pid md,
      (handlePushPackage request cs ms).get? i =
        some (PushEffect.metaPut pid md) →
      ∃ j, j < i ∧ (handlePushPackage request cs ms).get? j =
        some (PushEffect.codePut request.package_id request.code)) := by
  cases hok : cs.ok with
  | true =>
    rw [handlePushPackage_of_ok hok]
    refine ⟨?_, fun _ => ?_, ?_⟩
    · intro pid md hmem
      simp only [List.mem_cons, List.not_mem_nil, or_false] at hmem
      rcases hmem with h | h | h
      · exact absurd h (by simp)
      · injection h with h1 h2
        subst h1
        subst h2
        exact ⟨rfl, rfl, rfl, rfl⟩
      · exact absurd h (by simp)
    · exact List.mem_cons_of_mem _ (List.mem_cons_self _ _)
    · intro i pid md h
      match i with
      | 0 => simp [List.get?] at h
      | 1 => exact ⟨0, Nat.zero_lt_one, rfl⟩
      | 2 => simp [List.get?] at h
      | (n + 3) => simp [List.get?] at h
  | false =>
    rw [handlePushPackage_of_fail hok]
    refine ⟨?_, ?_, ?_⟩
    · intro pid md hmem
      simp only [List.mem_cons, List.not_mem_nil, or_false] at hmem
      rcases hmem with h | h
      · exact absurd h (by simp)
      · exact absurd h (by simp)
    · intro h
      exact Bool.noConfusion h
    · intro i pid md h
      match i with
      | 0 => simp [List.get?] at h
      | 1 => simp [List.get?] at h
      | (n + 2) => simp [List.get?] at h

/-- A concrete push request. -/
def pushRequest1 : PushPackageRequest :=
  { package_id := "pid1", skip_gc := true, uri := "uri1", code := "code1" }

/-- A successful table status. -/
def okStatus : Status := { ok := true, msg := "" }

/-- A failing table status. -/
def failStatus : Status := { ok := false, msg := "io error" }

/-- Witness: C8 with a successful code-storage put — the metadata record
with the request's fields and zero reference count is written. -/
theorem push_package_meta_fields_after_code_witness :
    okStatus.ok = true ∧
    PushEffect.metaPut "pid1" ⟨true, 0, "uri1"⟩ ∈
      handlePushPackage pushRequest1 okStatus okStatus :=
  ⟨rfl,
   (push_package_meta_fields_after_code pushRequest1 okStatus okStatus).2.1
     rfl⟩

/-- C9: when the code-storage put fails, HandlePushPackage issues no
metadata put and sends exactly one reply, carrying the failing status. -/
theorem push_package_code_failure_isolated (request : PushPackageRequest)
    (cs ms : Status) (hfail : cs.ok = false) :
    (handlePushPackage request cs ms).filter isReplyEffect =
      [PushEffect.sendReply cs] ∧
    ∀ pid md, PushEffect.metaPut pid md ∉ handlePushPackage request cs ms := by
  rw [handlePushPackage_of_fail hfail]
  refine ⟨by simp [isReplyEffect], ?_⟩
  intro pid md hmem
  simp only [List.mem_cons, List.not_mem_nil, or_false] at hmem
  rcases hmem with h | h
  · exact absurd h (by simp)
  · exact absurd h (by simp)

/-- Witness: C9 at a concrete failing code-storage put. -/
theorem push_package_code_failure_isolated_witness :
    failStatus.ok = false ∧
    (handlePushPackage pushRequest1 failStatus okStatus).filter
      isReplyEffect = [PushEffect.sendReply failStatus] ∧
    PushEffect.metaPut "pid1" ⟨true, 0, "uri1"⟩ ∉
      handlePushPackage pushRequest1 failStatus okStatus :=
  ⟨rfl,
   (push_package_code_failure_isolated pushRequest1 failStatus okStatus
     rfl).1,
   (push_package_code_failure_isolated pushRequest1 failStatus okStatus
     rfl).2 "pid1" ⟨true, 0, "uri1"⟩⟩

/-- C10: HandleGetPackageInfo and HandleFetchPackage each send exactly one
reply carrying the lookup's status unchanged, with the payload field set
from the record exactly when the lookup returned one and left at its
default (unset) value otherwise. -/
theorem get_fetch_reply_behavior (greq : GetPackageInfoRequest)
    (freq : FetchPackageRequest) (gs fs : Status)
    (gdata : Option PackageTableData) (fdata : Option CodeStorageTableData) :
    (handleGetPackageInfo greq gs gdata).length = 1 ∧
    (handleFetchPackage freq fs fdata).length = 1 ∧
    handleGetPackageInfo greq gs gdata = [({ package_info := gdata }, gs)] ∧
    handleFetchPackage freq fs fdata =
      [({ package_data := Option.map CodeStorageTableData.data fdata },
        fs)] := by
  refine ⟨rfl, rfl, ?_, ?_⟩
  · cases gdata with
    | none => rfl
    | some d => rfl
  · cases fdata with
    | none => rfl
    | some d => rfl

end RayGcs

